import Mathlib

/-!
Verification of the length-prefixed decoding primitives of the mqttparse
library (src/lib.rs): `parse_string`, `parse_len_prefixed_bytes` and
`QoS::from_u8`, over a shallow embedding in Lean.

Byte buffers are modelled as `List Nat` (each entry a byte value below 256).
Rust machine integers are modelled as `Nat` with explicit `% 2 ^ 16`
where `u16` overflow matters.  A Rust panic (arithmetic overflow in debug
profile, or an out-of-range slice index in release profile) is modelled as
`Option.none`; a normal return is `Option.some`.
-/

/-- Modelled from the spec: the `Status` sum type of the `status` module,
whose source file is absent from src; spec section 3 defines it as the sum
over Partial and Complete of a borrowed value. -/
inductive Status (α : Type) : Type where
  | Partial : Status α
  | Complete : α → Status α
deriving DecidableEq, Repr

/-- Modelled from the spec: the `Error` taxonomy of the `error` module,
whose source file is absent from src; spec section 3 lists `InvalidQoS`
and `Utf8` as the kinds used by this core (further kinds are reserved for
the excluded higher layers and play no role here).  The conversion applied
by the `?` operator in `parse_string` maps a UTF-8 decoding failure to
`Utf8`, per spec section 4.1. -/
inductive Error : Type where
  | InvalidQoS : Error
  | Utf8 : Error
deriving DecidableEq, Repr

/-- The `QoS` enum of src/lib.rs lines 31-36. -/
inductive QoS : Type where
  | AtMostOnce : QoS
  | AtLeastOnce : QoS
  | ExactlyOnce : QoS
deriving DecidableEq, Repr

namespace QoS

/-- `QoS::from_u8` (src/lib.rs lines 39-47): the argument is a `u8`,
modelled as a `Nat` (callers pass values below 256). -/
def from_u8 (qos : Nat) : Except Error QoS :=
  match qos with
  | 0 => Except.ok QoS.AtMostOnce
  | 1 => Except.ok QoS.AtLeastOnce
  | 2 => Except.ok QoS.ExactlyOnce
  | _ => Except.error Error.InvalidQoS

end QoS

/-- `BigEndian::read_u16` of the byteorder crate applied to the first two
bytes of the buffer: big-endian, so the byte at index 0 is the high byte.
Callers only invoke it after checking the buffer holds at least 2 bytes. -/
def read_u16 (bytes : List Nat) : Nat :=
  bytes.getD 0 0 * 256 + bytes.getD 1 0

/-- Rust slice indexing `&bytes[s..e]`: returns the subslice when
`s ≤ e ≤ bytes.len()`, and panics (modelled as `none`) otherwise. -/
def sliceRange (bytes : List Nat) (s e : Nat) : Option (List Nat) :=
  if s ≤ e ∧ e ≤ bytes.length then some ((bytes.drop s).take (e - s)) else none

/-- Continuation byte check of UTF-8: `0x80 ≤ b ≤ 0xBF`. -/
def utf8Cont (b : Nat) : Prop := 128 ≤ b ∧ b ≤ 191

instance (b : Nat) : Decidable (utf8Cont b) := by
  unfold utf8Cont; infer_instance

/-- Completes a 2-byte UTF-8 sequence `b b1` (with `0xC2 ≤ b ≤ 0xDF`)
given the decoding `rest` of the remaining input. -/
def utf8Step2 (rest : Option (List Nat)) (b b1 : Nat) : Option (List Nat) :=
  if utf8Cont b1 then
    Option.map (fun cps => ((b - 192) * 64 + (b1 - 128)) :: cps) rest
  else none

/-- Completes a 3-byte UTF-8 sequence `b b1 b2` (with `0xE0 ≤ b ≤ 0xEF`)
given the decoding `rest` of the remaining input.  The first continuation
byte is range-restricted for `0xE0` (no overlong forms) and for `0xED`
(no surrogate code points). -/
def utf8Step3 (rest : Option (List Nat)) (b b1 b2 : Nat) : Option (List Nat) :=
  if (if b = 224 then 160 ≤ b1 ∧ b1 ≤ 191
      else if b = 237 then 128 ≤ b1 ∧ b1 ≤ 159
      else utf8Cont b1) ∧ utf8Cont b2 then
    Option.map
      (fun cps => ((b - 224) * 4096 + (b1 - 128) * 64 + (b2 - 128)) :: cps) rest
  else none

/-- Completes a 4-byte UTF-8 sequence `b b1 b2 b3` (with `0xF0 ≤ b ≤ 0xF4`)
given the decoding `rest` of the remaining input.  The first continuation
byte is range-restricted for `0xF0` (no overlong forms) and for `0xF4`
(nothing above U+10FFFF). -/
def utf8Step4 (rest : Option (List Nat)) (b b1 b2 b3 : Nat) : Option (List Nat) :=
  if (if b = 240 then 144 ≤ b1 ∧ b1 ≤ 191
      else if b = 244 then 128 ≤ b1 ∧ b1 ≤ 143
      else utf8Cont b1) ∧ utf8Cont b2 ∧ utf8Cont b3 then
    Option.map
      (fun cps => ((b - 240) * 262144 + (b1 - 128) * 4096 +
                   (b2 - 128) * 64 + (b3 - 128)) :: cps) rest
  else none

/-- One layer of the UTF-8 decoding loop: classifies the lead byte,
checks the continuation bytes of the sequence it opens, and hands the
rest of the input to `recur`. -/
def utf8DecodeF (recur : List Nat → Option (List Nat)) :
    List Nat → Option (List Nat) := fun l =>
  match l with
  | [] => some []
  | b :: t =>
    if b < 128 then Option.map (fun cps => b :: cps) (recur t)
    else if 194 ≤ b ∧ b ≤ 223 then
      match t with
      | b1 :: t1 => utf8Step2 (recur t1) b b1
      | [] => none
    else if 224 ≤ b ∧ b ≤ 239 then
      match t with
      | b1 :: b2 :: t2 => utf8Step3 (recur t2) b b1 b2
      | _ => none
    else if 240 ≤ b ∧ b ≤ 244 then
      match t with
      | b1 :: b2 :: b3 :: t3 => utf8Step4 (recur t3) b b1 b2 b3
      | _ => none
    else none

/-- The decoding loop, with an explicit bound on the number of decoded
characters; each character consumes at least one byte, so any `fuel`
above the input length is enough (`utf8DecodeAux_irrel`). -/
def utf8DecodeAux : Nat → List Nat → Option (List Nat)
  | 0, _ => none
  | fuel + 1, l => utf8DecodeF (utf8DecodeAux fuel) l

/-- Strict UTF-8 validation and decoding, as performed by Rust
`str::from_utf8`: accepts exactly the minimal encodings of Unicode scalar
values (rejecting overlong forms, surrogate code points U+D800..U+DFFF and
values above U+10FFFF) and returns the list of decoded code points.
`none` models a `str::Utf8Error`. -/
def utf8Decode (l : List Nat) : Option (List Nat) :=
  utf8DecodeAux (l.length + 1) l

/-- `parse_string` (src/lib.rs lines 69-96).  The returned `&str` is the
validated byte subslice `bytes[2..(len + 2) as usize]`; we model it by its
bytes.  The expression `(len + 2) as usize` adds in `u16`, hence the
`% 2 ^ 16`; the subsequent slice indexing panics (gives `none`) when the
wrapped end index falls below 2 or beyond the buffer.  `str::from_utf8`
failure and the embedded NUL check both produce `Err(Error::Utf8)`. -/
def parse_string (bytes : List Nat) : Option (Except Error (Status (List Nat))) :=
  if bytes.length < 2 then some (Except.ok Status.Partial)
  else if bytes.length - 2 < read_u16 bytes then some (Except.ok Status.Partial)
  else
    (sliceRange bytes 2 ((read_u16 bytes + 2) % 2 ^ 16)).map (fun val =>
      match utf8Decode val with
      | none => Except.error Error.Utf8
      | some cps =>
        if cps.contains 0 then Except.error Error.Utf8
        else Except.ok (Status.Complete val))

/-- `parse_len_prefixed_bytes` (src/lib.rs lines 98-110): same prefix and
length checks as in `parse_string`, returning the raw subslice with no
content validation.  The end index `(len + 2) as usize` again wraps in
`u16`. -/
def parse_len_prefixed_bytes (bytes : List Nat) :
    Option (Except Error (Status (List Nat))) :=
  if bytes.length < 2 then some (Except.ok Status.Partial)
  else if bytes.length - 2 < read_u16 bytes then some (Except.ok Status.Partial)
  else
    (sliceRange bytes 2 ((read_u16 bytes + 2) % 2 ^ 16)).map (fun val =>
      Except.ok (Status.Complete val))

deriving instance DecidableEq for Except

example : parse_string [] = some (Except.ok Status.Partial) := by decide
example : parse_string [0, 0] = some (Except.ok (Status.Complete [])) := by decide
example : parse_string [0, 2, 104, 105] =
    some (Except.ok (Status.Complete [104, 105])) := by decide
example : parse_string [0, 4, 0, 159, 146, 150] =
    some (Except.error Error.Utf8) := by decide
example : parse_string [0, 1, 0] = some (Except.error Error.Utf8) := by decide
example : parse_len_prefixed_bytes [0, 16, 0, 0] =
    some (Except.ok Status.Partial) := by decide
example : utf8Decode [239, 187, 191] = some [65279] := by decide
example : utf8Decode [237, 160, 128] = none := by decide
example : utf8Decode [244, 143, 191, 191] = some [1114111] := by decide
example : utf8Decode [192, 128] = none := by decide

/-! ## Helper lemmas -/

theorem read_u16_append (b s : List Nat) (h : 2 ≤ b.length) :
    read_u16 (b ++ s) = read_u16 b := by
  unfold read_u16
  rw [List.getD_append b s 0 0 (by omega), List.getD_append b s 0 1 (by omega)]

theorem read_u16_lt (bytes : List Nat) (hb : ∀ x ∈ bytes, x < 256) :
    read_u16 bytes < 2 ^ 16 := by
  have h0 : bytes.getD 0 0 < 256 := by
    by_cases h : 0 < bytes.length
    · rw [List.getD_eq_getElem bytes 0 h]; exact hb _ (List.getElem_mem h)
    · rw [List.getD_eq_default bytes 0 (by omega)]; omega
  have h1 : bytes.getD 1 0 < 256 := by
    by_cases h : 1 < bytes.length
    · rw [List.getD_eq_getElem bytes 0 h]; exact hb _ (List.getElem_mem h)
    · rw [List.getD_eq_default bytes 0 (by omega)]; omega
  unfold read_u16
  omega

theorem take_drop_of_le (b s : List Nat) (n m : Nat) (h : n + m ≤ b.length) :
    ((b ++ s).drop n).take m = (b.drop n).take m := by
  rw [List.drop_append_eq_append_drop, List.take_append_eq_append_take]
  have h1 : m - (b.drop n).length = 0 := by
    simp only [List.length_drop]; omega
  rw [h1]
  simp

theorem sliceRange_append (b s p : List Nat) (lo hi : Nat)
    (h : sliceRange b lo hi = some p) : sliceRange (b ++ s) lo hi = some p := by
  unfold sliceRange at h ⊢
  by_cases hc : lo ≤ hi ∧ hi ≤ b.length
  · rw [if_pos hc] at h
    rw [if_pos ⟨hc.1, by simp only [List.length_append]; omega⟩]
    rw [take_drop_of_le b s lo (hi - lo) (by omega)]
    exact h
  · rw [if_neg hc] at h
    exact Option.noConfusion h

theorem parse_string_incomplete_iff (bytes : List Nat) :
    parse_string bytes = some (Except.ok Status.Partial) ↔
      bytes.length < 2 ∨ bytes.length - 2 < read_u16 bytes := by
  constructor
  · intro h
    by_contra hc
    push_neg at hc
    obtain ⟨h2, hlen⟩ := hc
    unfold parse_string at h
    rw [if_neg (by omega), if_neg (by omega)] at h
    cases hs : sliceRange bytes 2 ((read_u16 bytes + 2) % 2 ^ 16) with
    | none => rw [hs] at h; simp at h
    | some val =>
      rw [hs] at h
      simp only [Option.map_some', Option.some.injEq] at h
      cases hd : utf8Decode val with
      | none => rw [hd] at h; simp at h
      | some cps =>
        rw [hd] at h
        by_cases hn : 0 ∈ cps
        · simp [hn] at h
        · simp [hn] at h
  · intro h
    unfold parse_string
    rcases Nat.lt_or_ge bytes.length 2 with h2 | h2
    · rw [if_pos h2]
    · rw [if_neg (by omega)]
      have hlt : bytes.length - 2 < read_u16 bytes := by
        rcases h with h | h
        · omega
        · exact h
      rw [if_pos hlt]

theorem parse_string_complete_or_error (bytes : List Nat)
    (r : Except Error (Status (List Nat)))
    (h : parse_string bytes = some r) (hr : r ≠ Except.ok Status.Partial) :
    ∃ val, 2 ≤ bytes.length ∧ read_u16 bytes ≤ bytes.length - 2 ∧
      sliceRange bytes 2 ((read_u16 bytes + 2) % 2 ^ 16) = some val ∧
      (match utf8Decode val with
       | none => Except.error Error.Utf8
       | some cps =>
         if cps.contains 0 then Except.error Error.Utf8
         else Except.ok (Status.Complete val)) = r := by
  unfold parse_string at h
  by_cases h2 : bytes.length < 2
  · rw [if_pos h2] at h
    injection h with h
    exact absurd h.symm hr
  · rw [if_neg h2] at h
    by_cases hlen : bytes.length - 2 < read_u16 bytes
    · rw [if_pos hlen] at h
      injection h with h
      exact absurd h.symm hr
    · rw [if_neg hlen] at h
      cases hs : sliceRange bytes 2 ((read_u16 bytes + 2) % 2 ^ 16) with
      | none => rw [hs] at h; simp at h
      | some val =>
        rw [hs] at h
        simp only [Option.map_some', Option.some.injEq] at h
        exact ⟨val, by omega, by omega, rfl, h⟩

theorem parse_len_complete_or_error (bytes : List Nat)
    (r : Except Error (Status (List Nat)))
    (h : parse_len_prefixed_bytes bytes = some r)
    (hr : r ≠ Except.ok Status.Partial) :
    ∃ val, 2 ≤ bytes.length ∧ read_u16 bytes ≤ bytes.length - 2 ∧
      sliceRange bytes 2 ((read_u16 bytes + 2) % 2 ^ 16) = some val ∧
      Except.ok (Status.Complete val) = r := by
  unfold parse_len_prefixed_bytes at h
  by_cases h2 : bytes.length < 2
  · rw [if_pos h2] at h
    injection h with h
    exact absurd h.symm hr
  · rw [if_neg h2] at h
    by_cases hlen : bytes.length - 2 < read_u16 bytes
    · rw [if_pos hlen] at h
      injection h with h
      exact absurd h.symm hr
    · rw [if_neg hlen] at h
      cases hs : sliceRange bytes 2 ((read_u16 bytes + 2) % 2 ^ 16) with
      | none => rw [hs] at h; simp at h
      | some val =>
        rw [hs] at h
        simp only [Option.map_some', Option.some.injEq] at h
        exact ⟨val, by omega, by omega, rfl, h⟩

theorem parse_string_stable (b s : List Nat) (r : Except Error (Status (List Nat)))
    (h : parse_string b = some r) (hr : r ≠ Except.ok Status.Partial) :
    parse_string (b ++ s) = some r := by
  obtain ⟨val, h2, hlen, hs, hv⟩ := parse_string_complete_or_error b r h hr
  unfold parse_string
  rw [if_neg (by simp only [List.length_append]; omega)]
  rw [read_u16_append b s h2]
  rw [if_neg (by simp only [List.length_append]; omega)]
  rw [sliceRange_append b s val 2 ((read_u16 b + 2) % 2 ^ 16) hs]
  simp only [Option.map_some']
  exact congrArg some hv

theorem parse_len_stable (b s : List Nat) (r : Except Error (Status (List Nat)))
    (h : parse_len_prefixed_bytes b = some r) (hr : r ≠ Except.ok Status.Partial) :
    parse_len_prefixed_bytes (b ++ s) = some r := by
  obtain ⟨val, h2, hlen, hs, hv⟩ := parse_len_complete_or_error b r h hr
  unfold parse_len_prefixed_bytes
  rw [if_neg (by simp only [List.length_append]; omega)]
  rw [read_u16_append b s h2]
  rw [if_neg (by simp only [List.length_append]; omega)]
  rw [sliceRange_append b s val 2 ((read_u16 b + 2) % 2 ^ 16) hs]
  simp only [Option.map_some']
  exact congrArg some hv

theorem parse_string_wrap (bytes : List Nat) (h2 : 2 ≤ bytes.length)
    (hlen : read_u16 bytes = 65534 ∨ read_u16 bytes = 65535)
    (hav : read_u16 bytes ≤ bytes.length - 2) :
    parse_string bytes = none := by
  unfold parse_string
  rw [if_neg (by omega), if_neg (by omega)]
  have hm : (read_u16 bytes + 2) % 2 ^ 16 < 2 := by omega
  unfold sliceRange
  rw [if_neg (by omega)]
  rfl

theorem parse_len_wrap (bytes : List Nat) (h2 : 2 ≤ bytes.length)
    (hlen : read_u16 bytes = 65534 ∨ read_u16 bytes = 65535)
    (hav : read_u16 bytes ≤ bytes.length - 2) :
    parse_len_prefixed_bytes bytes = none := by
  unfold parse_len_prefixed_bytes
  rw [if_neg (by omega), if_neg (by omega)]
  have hm : (read_u16 bytes + 2) % 2 ^ 16 < 2 := by omega
  unfold sliceRange
  rw [if_neg (by omega)]
  rfl

theorem read_u16_cons (b0 b1 : Nat) (t : List Nat) :
    read_u16 (b0 :: b1 :: t) = b0 * 256 + b1 := by
  unfold read_u16
  rfl

theorem parse_string_wrap_replicate (b0 b1 x n : Nat)
    (h : b0 * 256 + b1 = 65534 ∨ b0 * 256 + b1 = 65535)
    (hn : b0 * 256 + b1 ≤ n) :
    parse_string (b0 :: b1 :: List.replicate n x) = none := by
  apply parse_string_wrap
  · rw [List.length_cons, List.length_cons, List.length_replicate]
    omega
  · rw [read_u16_cons]
    exact h
  · rw [read_u16_cons, List.length_cons, List.length_cons,
      List.length_replicate]
    omega

theorem parse_len_wrap_replicate (b0 b1 x n : Nat)
    (h : b0 * 256 + b1 = 65534 ∨ b0 * 256 + b1 = 65535)
    (hn : b0 * 256 + b1 ≤ n) :
    parse_len_prefixed_bytes (b0 :: b1 :: List.replicate n x) = none := by
  apply parse_len_wrap
  · rw [List.length_cons, List.length_cons, List.length_replicate]
    omega
  · rw [read_u16_cons]
    exact h
  · rw [read_u16_cons, List.length_cons, List.length_cons,
      List.length_replicate]
    omega

theorem utf8DecodeAux_irrel (f1 : Nat) : ∀ (f2 : Nat) (l : List Nat),
    l.length < f1 → l.length < f2 → utf8DecodeAux f1 l = utf8DecodeAux f2 l := by
  induction f1 with
  | zero => intro f2 l h1 h2; omega
  | succ a ih =>
    intro f2 l h1 h2
    cases f2 with
    | zero => omega
    | succ c =>
      show utf8DecodeF (utf8DecodeAux a) l = utf8DecodeF (utf8DecodeAux c) l
      cases l with
      | nil => rfl
      | cons x t =>
        simp only [List.length_cons] at h1 h2
        unfold utf8DecodeF
        dsimp only
        by_cases hx : x < 128
        · simp only [if_pos hx]
          rw [ih c t (by omega) (by omega)]
        · simp only [if_neg hx]
          by_cases hx2 : 194 ≤ x ∧ x ≤ 223
          · simp only [if_pos hx2]
            cases t with
            | nil => rfl
            | cons b1 t1 =>
              simp only [List.length_cons] at h1 h2
              dsimp only
              rw [ih c t1 (by omega) (by omega)]
          · simp only [if_neg hx2]
            by_cases hx3 : 224 ≤ x ∧ x ≤ 239
            · simp only [if_pos hx3]
              cases t with
              | nil => rfl
              | cons b1 t1 =>
                cases t1 with
                | nil => rfl
                | cons b2 t2 =>
                  simp only [List.length_cons] at h1 h2
                  dsimp only
                  rw [ih c t2 (by omega) (by omega)]
            · simp only [if_neg hx3]
              by_cases hx4 : 240 ≤ x ∧ x ≤ 244
              · simp only [if_pos hx4]
                cases t with
                | nil => rfl
                | cons b1 t1 =>
                  cases t1 with
                  | nil => rfl
                  | cons b2 t2 =>
                    cases t2 with
                    | nil => rfl
                    | cons b3 t3 =>
                      simp only [List.length_cons] at h1 h2
                      dsimp only
                      rw [ih c t3 (by omega) (by omega)]
              · simp only [if_neg hx4]

theorem utf8Decode_cons_step (b : Nat) (t : List Nat) :
    utf8Decode (b :: t) = utf8DecodeF utf8Decode (b :: t) := by
  show utf8DecodeF (utf8DecodeAux ((b :: t).length + 1 - 1)) (b :: t) =
    utf8DecodeF utf8Decode (b :: t)
  unfold utf8DecodeF
  dsimp only
  unfold utf8Decode
  by_cases hx : b < 128
  · simp only [if_pos hx]
    rw [utf8DecodeAux_irrel _ (t.length + 1) t (by simp only [List.length_cons]; omega) (by omega)]
  · simp only [if_neg hx]
    by_cases hx2 : 194 ≤ b ∧ b ≤ 223
    · simp only [if_pos hx2]
      cases t with
      | nil => rfl
      | cons b1 t1 =>
        dsimp only
        rw [utf8DecodeAux_irrel _ (t1.length + 1) t1 (by simp only [List.length_cons]; omega) (by omega)]
    · simp only [if_neg hx2]
      by_cases hx3 : 224 ≤ b ∧ b ≤ 239
      · simp only [if_pos hx3]
        cases t with
        | nil => rfl
        | cons b1 t1 =>
          cases t1 with
          | nil => rfl
          | cons b2 t2 =>
            dsimp only
            rw [utf8DecodeAux_irrel _ (t2.length + 1) t2 (by simp only [List.length_cons]; omega) (by omega)]
      · simp only [if_neg hx3]
        by_cases hx4 : 240 ≤ b ∧ b ≤ 244
        · simp only [if_pos hx4]
          cases t with
          | nil => rfl
          | cons b1 t1 =>
            cases t1 with
            | nil => rfl
            | cons b2 t2 =>
              cases t2 with
              | nil => rfl
              | cons b3 t3 =>
                dsimp only
                rw [utf8DecodeAux_irrel _ (t3.length + 1) t3
                  (by simp only [List.length_cons]; omega) (by omega)]
        · simp only [if_neg hx4]

theorem utf8Decode_ascii_cons (b : Nat) (hb : b < 128) (t : List Nat) :
    utf8Decode (b :: t) = (utf8Decode t).map (fun cps => b :: cps) := by
  rw [utf8Decode_cons_step]
  unfold utf8DecodeF
  dsimp only
  rw [if_pos hb]

theorem utf8Decode_replicate_97 (n : Nat) :
    utf8Decode (List.replicate n 97) = some (List.replicate n 97) := by
  induction n with
  | zero => rfl
  | succ m ih =>
    rw [List.replicate_succ, utf8Decode_ascii_cons 97 (by omega), ih]
    rfl

theorem utf8Decode_cont_head (b : Nat) (hb : 128 ≤ b) (hb2 : b < 194) (t : List Nat) :
    utf8Decode (b :: t) = none := by
  rw [utf8Decode_cons_step]
  unfold utf8DecodeF
  dsimp only
  rw [if_neg (by omega), if_neg (by omega), if_neg (by omega), if_neg (by omega)]

theorem parse_len_incomplete_iff (bytes : List Nat) :
    parse_len_prefixed_bytes bytes = some (Except.ok Status.Partial) ↔
      bytes.length < 2 ∨ bytes.length - 2 < read_u16 bytes := by
  constructor
  · intro h
    by_contra hc
    push_neg at hc
    obtain ⟨h2, hlen⟩ := hc
    unfold parse_len_prefixed_bytes at h
    rw [if_neg (by omega), if_neg (by omega)] at h
    cases hs : sliceRange bytes 2 ((read_u16 bytes + 2) % 2 ^ 16) with
    | none => rw [hs] at h; simp at h
    | some val => rw [hs] at h; simp at h
  · intro h
    unfold parse_len_prefixed_bytes
    rcases Nat.lt_or_ge bytes.length 2 with h2 | h2
    · rw [if_pos h2]
    · rw [if_neg (by omega)]
      have hlt : bytes.length - 2 < read_u16 bytes := by
        rcases h with h | h
        · omega
        · exact h
      rw [if_pos hlt]

theorem utf8Decode_bom_cons (t : List Nat) :
    utf8Decode (239 :: 187 :: 191 :: t) =
      (utf8Decode t).map (fun cps => 65279 :: cps) := by
  rw [utf8Decode_cons_step]
  norm_num [utf8DecodeF]
  unfold utf8Step3
  rw [if_pos (by decide)]

theorem match_complete_imp_eq (val s : List Nat)
    (hv : (match utf8Decode val with
           | none => Except.error Error.Utf8
           | some cps =>
             if cps.contains 0 then Except.error Error.Utf8
             else Except.ok (Status.Complete val)) =
          Except.ok (Status.Complete s)) : val = s := by
  cases hd : utf8Decode val with
  | none => rw [hd] at hv; exact Except.noConfusion hv
  | some cps =>
    rw [hd] at hv
    by_cases hn : 0 ∈ cps
    · simp [hn] at hv
    · simp [hn] at hv
      exact hv

/-! ## Claim theorems -/

/-- Claim C1.  The claim quantifies over every 16-bit length value, but the
code computes the slice end `(len + 2) as usize` in `u16`, which wraps for
`len = 65535`: on a buffer of exactly `2 + 65535` bytes whose prefix
correctly encodes 65535, `parse_len_prefixed_bytes` panics (modelled
`none`) instead of returning `Complete` of the 65535-byte payload. -/
theorem complete_at_full_len_fails_for_len65535 :
    parse_len_prefixed_bytes (255 :: 255 :: List.replicate 65535 7) = none :=
  parse_len_wrap_replicate 255 255 7 65535 (Or.inr (by norm_num))
    (by norm_num)

/-- Claim C2.  A buffer shorter than 2 bytes makes both decoders return
`Partial`, and `Partial` arises only from that case or from an
insufficient payload (`bytes.len() - 2 < len`). -/
theorem short_buffer_status_iff (bytes : List Nat) :
    (bytes.length < 2 →
      parse_string bytes = some (Except.ok Status.Partial) ∧
      parse_len_prefixed_bytes bytes = some (Except.ok Status.Partial)) ∧
    ((parse_string bytes = some (Except.ok Status.Partial) ∨
      parse_len_prefixed_bytes bytes = some (Except.ok Status.Partial)) →
      bytes.length < 2 ∨ bytes.length - 2 < read_u16 bytes) := by
  constructor
  · intro h
    exact ⟨(parse_string_incomplete_iff bytes).mpr (Or.inl h),
           (parse_len_incomplete_iff bytes).mpr (Or.inl h)⟩
  · intro h
    rcases h with h | h
    · exact (parse_string_incomplete_iff bytes).mp h
    · exact (parse_len_incomplete_iff bytes).mp h

theorem short_buffer_status_iff_witness :
    (parse_string [0] = some (Except.ok Status.Partial) ∧
     parse_len_prefixed_bytes [0] = some (Except.ok Status.Partial)) ∧
    (([0] : List Nat).length < 2 ∨
     ([0] : List Nat).length - 2 < read_u16 [0]) := by
  have h := short_buffer_status_iff [0]
  have h1 := h.1 (by decide)
  exact ⟨h1, h.2 (Or.inl h1.1)⟩

/-- Claim C3.  The claim asserts that with at least `2 + len` bytes
available, an invalid-UTF-8 payload always yields `Err(Utf8)`.  At
`len = 65534` the payload of 65534 copies of the (invalid) bare
continuation byte `0x80` is indeed rejected by the UTF-8 decoder (first
conjunct), yet `parse_string` panics on the wrapped `u16` slice bound
instead of returning the error (second conjunct). -/
theorem invalid_utf8_payload_panics_at_len65534 :
    utf8Decode (List.replicate 65534 128) = none ∧
    parse_string (255 :: 254 :: List.replicate 65534 128) = none := by
  constructor
  · rw [show (65534 : Nat) = 65533 + 1 from rfl, List.replicate_succ]
    exact utf8Decode_cont_head 128 (by omega) (by omega) _
  · exact parse_string_wrap_replicate 255 254 128 65534
      (Or.inl (by norm_num)) (by norm_num)

/-- Claim C4.  The claim states the byte decoder returns `Ok` on every
input.  On a buffer whose prefix encodes `len = 65534` and which carries
exactly that many payload bytes, it instead panics on the wrapped `u16`
slice bound (modelled `none`). -/
theorem byte_decoder_panics_despite_no_error_case :
    parse_len_prefixed_bytes (255 :: 254 :: List.replicate 65534 0) = none :=
  parse_len_wrap_replicate 255 254 0 65534 (Or.inl (by norm_num))
    (by norm_num)

/-- Claim C5.  `QoS::from_u8` maps 0, 1, 2 to the three variants and every
other `u8` value to `Err(InvalidQoS)`. -/
theorem qos_from_u8_contract :
    QoS.from_u8 0 = Except.ok QoS.AtMostOnce ∧
    QoS.from_u8 1 = Except.ok QoS.AtLeastOnce ∧
    QoS.from_u8 2 = Except.ok QoS.ExactlyOnce ∧
    ∀ q : Nat, 3 ≤ q → q ≤ 255 →
      QoS.from_u8 q = Except.error Error.InvalidQoS := by
  refine ⟨rfl, rfl, rfl, ?_⟩
  intro q h3 h255
  obtain ⟨n, rfl⟩ : ∃ n, q = n + 3 := ⟨q - 3, by omega⟩
  rfl

theorem qos_from_u8_contract_witness :
    QoS.from_u8 0 = Except.ok QoS.AtMostOnce ∧
    QoS.from_u8 7 = Except.error Error.InvalidQoS := by
  have h := qos_from_u8_contract
  exact ⟨h.1, h.2.2.2 7 (by omega) (by omega)⟩

/-- Claim C6.  The round-trip property fails at the overflow lengths: the
65534-byte string of `a` characters is valid UTF-8 (first conjunct) and
free of U+0000 (second conjunct), and `255 :: 254 :: payload` is exactly
its byte length 65534 as a big-endian prefix followed by the payload, yet
`parse_string` panics (third conjunct) instead of returning the string. -/
theorem roundtrip_fails_at_len65534 :
    utf8Decode (List.replicate 65534 97) = some (List.replicate 65534 97) ∧
    ¬ (0 ∈ List.replicate 65534 97) ∧
    parse_string (255 :: 254 :: List.replicate 65534 97) = none := by
  refine ⟨utf8Decode_replicate_97 65534, ?_, ?_⟩
  · rw [List.mem_replicate]
    omega
  · exact parse_string_wrap_replicate 255 254 97 65534
      (Or.inl (by norm_num)) (by norm_num)

/-- Claim C7.  Monotonic convergence: a `Complete` or `Error` outcome of
either decoder is unchanged by appending further bytes, and a decode that
is `Partial` on the extended buffer was already `Partial` on the original
(so an outcome never moves back to `Partial`). -/
theorem monotonic_convergence (b s : List Nat) :
    (∀ v, parse_string b = some (Except.ok (Status.Complete v)) →
      parse_string (b ++ s) = some (Except.ok (Status.Complete v))) ∧
    (∀ e, parse_string b = some (Except.error e) →
      parse_string (b ++ s) = some (Except.error e)) ∧
    (parse_string (b ++ s) = some (Except.ok Status.Partial) →
      parse_string b = some (Except.ok Status.Partial)) ∧
    (∀ v, parse_len_prefixed_bytes b = some (Except.ok (Status.Complete v)) →
      parse_len_prefixed_bytes (b ++ s) =
        some (Except.ok (Status.Complete v))) ∧
    (∀ e, parse_len_prefixed_bytes b = some (Except.error e) →
      parse_len_prefixed_bytes (b ++ s) = some (Except.error e)) ∧
    (parse_len_prefixed_bytes (b ++ s) = some (Except.ok Status.Partial) →
      parse_len_prefixed_bytes b = some (Except.ok Status.Partial)) := by
  refine ⟨?_, ?_, ?_, ?_, ?_, ?_⟩
  · intro v h
    exact parse_string_stable b s _ h (by simp)
  · intro e h
    exact parse_string_stable b s _ h (by simp)
  · intro h
    rw [parse_string_incomplete_iff] at h ⊢
    rcases h with h | h
    · simp only [List.length_append] at h
      omega
    · by_cases h2 : b.length < 2
      · exact Or.inl h2
      · right
        rw [read_u16_append b s (by omega)] at h
        simp only [List.length_append] at h
        omega
  · intro v h
    exact parse_len_stable b s _ h (by simp)
  · intro e h
    exact parse_len_stable b s _ h (by simp)
  · intro h
    rw [parse_len_incomplete_iff] at h ⊢
    rcases h with h | h
    · simp only [List.length_append] at h
      omega
    · by_cases h2 : b.length < 2
      · exact Or.inl h2
      · right
        rw [read_u16_append b s (by omega)] at h
        simp only [List.length_append] at h
        omega

theorem monotonic_convergence_witness :
    parse_string ([0, 1, 104] ++ [5]) =
      some (Except.ok (Status.Complete [104])) ∧
    parse_len_prefixed_bytes ([0, 1, 104] ++ [5]) =
      some (Except.ok (Status.Complete [104])) := by
  have h := monotonic_convergence [0, 1, 104] [5]
  exact ⟨h.1 [104] (by decide), h.2.2.2.1 [104] (by decide)⟩

/-- Claim C8.  A `Complete(s)` result of `parse_string` is byte-identical
to `bytes[2..2+len]` (no transformation), and the UTF-8 decoder passes a
leading U+FEFF byte-order-mark through unchanged rather than stripping
it. -/
theorem complete_payload_byte_identical (bytes s : List Nat)
    (hb : ∀ x ∈ bytes, x < 256)
    (h : parse_string bytes = some (Except.ok (Status.Complete s))) :
    s = (bytes.drop 2).take (read_u16 bytes) ∧
    ∀ t, utf8Decode (239 :: 187 :: 191 :: t) =
      (utf8Decode t).map (fun cps => 65279 :: cps) := by
  refine ⟨?_, fun t => utf8Decode_bom_cons t⟩
  obtain ⟨val, h2, hlen, hs, hv⟩ :=
    parse_string_complete_or_error bytes _ h (by simp)
  have hval : val = s := match_complete_imp_eq val s hv
  subst hval
  have hlt : read_u16 bytes < 2 ^ 16 := read_u16_lt bytes hb
  have hcond : 2 ≤ (read_u16 bytes + 2) % 2 ^ 16 ∧
      (read_u16 bytes + 2) % 2 ^ 16 ≤ bytes.length := by
    by_contra hc
    unfold sliceRange at hs
    rw [if_neg hc] at hs
    exact Option.noConfusion hs
  have he : (read_u16 bytes + 2) % 2 ^ 16 = read_u16 bytes + 2 := by omega
  unfold sliceRange at hs
  rw [if_pos hcond, he] at hs
  injection hs with hs
  rw [← hs]
  congr 1

theorem complete_payload_byte_identical_witness :
    ([104, 105] : List Nat) =
      (([0, 2, 104, 105] : List Nat).drop 2).take (read_u16 [0, 2, 104, 105]) ∧
    utf8Decode (239 :: 187 :: 191 :: [97]) =
      (utf8Decode [97]).map (fun cps => 65279 :: cps) := by
  have h := complete_payload_byte_identical [0, 2, 104, 105] [104, 105]
    (by decide) (by decide)
  exact ⟨h.1, h.2 [97]⟩

/-- Claim C9.  The implicit no-panic claim fails: the `u16` addition
`len + 2` overflows for `len = 65535` (first conjunct, string decoder on
an exactly-sized buffer) and `len = 65534` (second conjunct, byte decoder
on a longer-than-needed buffer), and the resulting wrapped slice bound
makes the decoders panic — modelled as `none`. -/
theorem no_panic_claim_fails_u16_overflow :
    parse_string (255 :: 255 :: List.replicate 65535 97) = none ∧
    parse_len_prefixed_bytes (255 :: 254 :: List.replicate 65600 3) = none := by
  constructor
  · exact parse_string_wrap_replicate 255 255 97 65535
      (Or.inr (by norm_num)) (by norm_num)
  · exact parse_len_wrap_replicate 255 254 3 65600 (Or.inl (by norm_num))
      (by norm_num)

/-- Claim C10.  The two decoders agree: they are `Partial` on exactly the
same inputs, and whenever the string decoder returns `Complete(s)` the
byte decoder returns `Complete` of exactly the bytes of `s`. -/
theorem string_bytes_decoder_agreement (bytes : List Nat) :
    (parse_string bytes = some (Except.ok Status.Partial) ↔
      parse_len_prefixed_bytes bytes = some (Except.ok Status.Partial)) ∧
    ∀ s, parse_string bytes = some (Except.ok (Status.Complete s)) →
      parse_len_prefixed_bytes bytes = some (Except.ok (Status.Complete s)) := by
  constructor
  · rw [parse_string_incomplete_iff, parse_len_incomplete_iff]
  · intro s h
    obtain ⟨val, h2, hlen, hs, hv⟩ :=
      parse_string_complete_or_error bytes _ h (by simp)
    have hval : val = s := match_complete_imp_eq val s hv
    subst hval
    unfold parse_len_prefixed_bytes
    rw [if_neg (by omega), if_neg (by omega), hs]
    rfl

theorem string_bytes_decoder_agreement_witness :
    parse_len_prefixed_bytes [0, 1, 104] =
      some (Except.ok (Status.Complete [104])) := by
  exact (string_bytes_decoder_agreement [0, 1, 104]).2 [104] (by decide)
